import Mathlib

/-!
Verification of the confluence-exporter repository.

Strings from the Python source are modelled as `List Char` (Python `str` is a
sequence of code points).  Each definition below is a direct translation of a
function or code region of the source files `main.py`, `pdf_exporter.py` and
`confluence_client.py`; the source location is recorded in the doc comment.
-/

set_option maxRecDepth 40000

namespace CE

/-! ## PathResolver: `PDFExporter._sanitize_path` and `PDFExporter._sanitize_filename`
    (src/pdf_exporter.py lines 74-107) -/

/-- The character class of `re.sub(r'[<>:"|?*]', '', path)` in `_sanitize_path`. -/
def badPathChar (c : Char) : Bool :=
  c == '<' || c == '>' || c == ':' || c == '"' || c == '|' || c == '?' || c == '*'

/-- The character class of `re.sub(r'[<>:"/\\|?*]', '', filename)` in `_sanitize_filename`. -/
def badFileChar (c : Char) : Bool :=
  badPathChar c || c == '/' || c == '\\'

/-- `path = re.sub(r'[<>:"|?*]', '', path)` (pdf_exporter.py line 85). -/
def removeBadPath (s : List Char) : List Char :=
  s.filter fun c => !(badPathChar c)

/-- `path = re.sub(r'/+', '/', path)` (pdf_exporter.py line 87): every maximal
run of `/` characters is collapsed to a single `/`. -/
def collapseSlashes : List Char → List Char
  | [] => []
  | [c] => [c]
  | c :: d :: rest =>
    if c == '/' && d == '/' then collapseSlashes (d :: rest)
    else c :: collapseSlashes (d :: rest)

def slash (c : Char) : Bool := c == '/'

/-- `path.strip('/')` (pdf_exporter.py line 88). -/
def stripSlashes (s : List Char) : List Char :=
  ((s.dropWhile slash).reverse.dropWhile slash).reverse

/-- `PDFExporter._sanitize_path` (pdf_exporter.py lines 74-88). -/
def sanitize_path (s : List Char) : List Char :=
  stripSlashes (collapseSlashes (removeBadPath s))

/-- `filename = re.sub(r'[<>:"/\\|?*]', '', filename)` (pdf_exporter.py line 101). -/
def removeBadFile (s : List Char) : List Char :=
  s.filter fun c => !(badFileChar c)

/-- `filename = filename.replace(' ', '_')` (pdf_exporter.py line 103). -/
def replaceSpaces (s : List Char) : List Char :=
  s.map fun c => if c == ' ' then '_' else c

/-- `if len(filename) > 200: filename = filename[:200]` (pdf_exporter.py lines 105-106). -/
def truncate200 (s : List Char) : List Char :=
  if s.length > 200 then s.take 200 else s

/-- `PDFExporter._sanitize_filename` (pdf_exporter.py lines 90-107). -/
def sanitize_filename (s : List Char) : List Char :=
  truncate200 (replaceSpaces (removeBadFile s))

/-- `f"{self._sanitize_filename(title)}_{page_id}.pdf"` (pdf_exporter.py line 574). -/
def artifactFilename (title pid : List Char) : List Char :=
  sanitize_filename title ++ '_' :: (pid ++ ".pdf".data)

/-! ### Lemmas about the sanitizers -/

theorem mem_collapseSlashes {c : Char} : ∀ {s : List Char}, c ∈ collapseSlashes s → c ∈ s
  | [], h => by simpa [collapseSlashes] using h
  | [d], h => by simpa [collapseSlashes] using h
  | a :: b :: rest, h => by
    unfold collapseSlashes at h
    by_cases hab : (a == '/' && b == '/') = true
    · rw [if_pos hab] at h
      exact List.mem_cons_of_mem a (mem_collapseSlashes h)
    · rw [if_neg hab] at h
      rcases List.mem_cons.mp h with h1 | h2
      · exact h1 ▸ List.mem_cons_self _ _
      · exact List.mem_cons_of_mem a (mem_collapseSlashes h2)

theorem collapseSlashes_cons (x : Char) :
    ∀ xs : List Char, ∃ t, collapseSlashes (x :: xs) = x :: t
  | [] => ⟨[], rfl⟩
  | d :: rest => by
    unfold collapseSlashes
    by_cases hxd : (x == '/' && d == '/') = true
    · obtain ⟨t, ht⟩ := collapseSlashes_cons d rest
      refine ⟨t, ?_⟩
      rw [if_pos hxd, ht]
      have hx : x = '/' := by
        have := (Bool.and_eq_true _ _).mp hxd
        exact beq_iff_eq.mp this.1
      have hd : d = '/' := by
        have := (Bool.and_eq_true _ _).mp hxd
        exact beq_iff_eq.mp this.2
      rw [hx, hd]
    · exact ⟨collapseSlashes (d :: rest), by rw [if_neg hxd]⟩

/-- No two adjacent slashes. -/
def NoAdj (l : List Char) : Prop :=
  List.Chain' (fun a b => ¬(a = '/' ∧ b = '/')) l

theorem noAdj_collapseSlashes : ∀ s : List Char, NoAdj (collapseSlashes s)
  | [] => by simp [collapseSlashes, NoAdj]
  | [c] => by simp [collapseSlashes, NoAdj]
  | a :: b :: rest => by
    unfold collapseSlashes
    by_cases hab : (a == '/' && b == '/') = true
    · rw [if_pos hab]; exact noAdj_collapseSlashes (b :: rest)
    · rw [if_neg hab]
      obtain ⟨t, ht⟩ := collapseSlashes_cons b rest
      have htl := noAdj_collapseSlashes (b :: rest)
      rw [ht] at htl ⊢
      refine List.chain'_cons.mpr ⟨?_, htl⟩
      intro ⟨ha, hb⟩
      exact hab (by rw [ha, hb]; rfl)

theorem collapseSlashes_eq_self : ∀ {s : List Char}, NoAdj s → collapseSlashes s = s
  | [], _ => rfl
  | [c], _ => rfl
  | a :: b :: rest, h => by
    unfold collapseSlashes
    have hab : ¬(a = '/' ∧ b = '/') := (List.chain'_cons.mp h).1
    have htl : NoAdj (b :: rest) := (List.chain'_cons.mp h).2
    have hne : (a == '/' && b == '/') ≠ true := by
      intro hc
      have := (Bool.and_eq_true _ _).mp hc
      exact hab ⟨beq_iff_eq.mp this.1, beq_iff_eq.mp this.2⟩
    rw [if_neg hne, collapseSlashes_eq_self htl]

theorem NoAdj.of_append_left {l m : List Char} (h : NoAdj (l ++ m)) : NoAdj m :=
  ((List.chain'_append.mp h).2).1

theorem NoAdj.of_append_right {l m : List Char} (h : NoAdj (l ++ m)) : NoAdj l :=
  (List.chain'_append.mp h).1

theorem NoAdj.of_isInfix {l m : List Char} (h : l <:+: m) (hm : NoAdj m) : NoAdj l := by
  obtain ⟨a, b, rfl⟩ := h
  rw [List.append_assoc] at hm
  exact (hm.of_append_left).of_append_right

theorem stripSlashes_isInfix (s : List Char) : stripSlashes s <:+: s := by
  obtain ⟨u, hu⟩ : List.dropWhile slash s <:+ s := List.dropWhile_suffix slash
  obtain ⟨w, hw⟩ : List.dropWhile slash (List.dropWhile slash s).reverse <:+
      (List.dropWhile slash s).reverse := List.dropWhile_suffix slash
  refine ⟨u, w.reverse, ?_⟩
  have hts : stripSlashes s ++ w.reverse = List.dropWhile slash s := by
    unfold stripSlashes
    rw [← List.reverse_append, hw, List.reverse_reverse]
  rw [List.append_assoc, hts, hu]

theorem dropWhile_dropWhile (p : Char → Bool) :
    ∀ l : List Char, List.dropWhile p (List.dropWhile p l) = List.dropWhile p l
  | [] => rfl
  | c :: rest => by
    by_cases hc : p c = true
    · rw [List.dropWhile_cons_of_pos hc]; exact dropWhile_dropWhile p rest
    · rw [List.dropWhile_cons_of_neg hc, List.dropWhile_cons_of_neg hc]

/-- The second half of `strip('/')`: remove trailing slashes. -/
def dropRightSlash (l : List Char) : List Char :=
  (l.reverse.dropWhile slash).reverse

theorem stripSlashes_eq (s : List Char) :
    stripSlashes s = dropRightSlash (s.dropWhile slash) := rfl

theorem dropRightSlash_idem (l : List Char) :
    dropRightSlash (dropRightSlash l) = dropRightSlash l := by
  unfold dropRightSlash
  rw [List.reverse_reverse, dropWhile_dropWhile]

theorem dropRightSlash_isPrefix (l : List Char) : dropRightSlash l <+: l := by
  obtain ⟨w, hw⟩ : List.dropWhile slash l.reverse <:+ l.reverse := List.dropWhile_suffix slash
  refine ⟨w.reverse, ?_⟩
  have h1 : dropRightSlash l ++ w.reverse = (w ++ l.reverse.dropWhile slash).reverse := by
    rw [List.reverse_append]; rfl
  rw [h1, hw, List.reverse_reverse]

theorem head_false_of_dropWhile_eq_self {p : Char → Bool} {x : Char} {xs : List Char}
    (h : List.dropWhile p (x :: xs) = x :: xs) : p x = false := by
  by_cases hx : p x = true
  · rw [List.dropWhile_cons_of_pos hx] at h
    have hlen : (List.dropWhile p xs).length ≤ xs.length := (List.dropWhile_sublist p).length_le
    rw [h] at hlen
    simp at hlen
  · exact Bool.eq_false_iff.mpr hx

theorem dropWhile_eq_self_of_stripped {p : Char → Bool} {m : List Char}
    (hm : List.dropWhile p m = m) : List.dropWhile p (dropRightSlash m) = dropRightSlash m := by
  rcases hdr : dropRightSlash m with _ | ⟨x, ys⟩
  · rfl
  · obtain ⟨w, hw⟩ := dropRightSlash_isPrefix m
    rw [hdr] at hw
    have hm' : List.dropWhile p (x :: (ys ++ w)) = x :: (ys ++ w) := by
      rw [show x :: (ys ++ w) = m from hw]
      exact hm
    have hx : p x = false := head_false_of_dropWhile_eq_self hm'
    rw [List.dropWhile_cons_of_neg (by simp [hx])]

theorem stripSlashes_idem (s : List Char) :
    stripSlashes (stripSlashes s) = stripSlashes s := by
  rw [stripSlashes_eq s, stripSlashes_eq]
  rw [dropWhile_eq_self_of_stripped (dropWhile_dropWhile slash s), dropRightSlash_idem]

theorem mem_sanitize_path {c : Char} {s : List Char} (h : c ∈ sanitize_path s) :
    badPathChar c = false := by
  have h1 : c ∈ collapseSlashes (removeBadPath s) :=
    (stripSlashes_isInfix (collapseSlashes (removeBadPath s))).subset h
  have h2 : c ∈ removeBadPath s := mem_collapseSlashes h1
  have h3 := (List.mem_filter.mp h2).2
  simpa using h3

theorem noAdj_sanitize_path (s : List Char) : NoAdj (sanitize_path s) :=
  NoAdj.of_isInfix (stripSlashes_isInfix _) (noAdj_collapseSlashes (removeBadPath s))

theorem dropWhile_sanitize_path (s : List Char) :
    List.dropWhile slash (sanitize_path s) = sanitize_path s := by
  show List.dropWhile slash (stripSlashes _) = stripSlashes _
  rw [stripSlashes_eq]
  rcases hdr : dropRightSlash (List.dropWhile slash (collapseSlashes (removeBadPath s)))
      with _ | ⟨x, ys⟩
  · rfl
  · rw [← hdr]
    exact dropWhile_eq_self_of_stripped (dropWhile_dropWhile slash _)

theorem sanitize_path_idem (s : List Char) :
    sanitize_path (sanitize_path s) = sanitize_path s := by
  have h1 : removeBadPath (sanitize_path s) = sanitize_path s := by
    apply List.filter_eq_self.mpr
    intro c hc
    simp [mem_sanitize_path hc]
  have h2 : collapseSlashes (sanitize_path s) = sanitize_path s :=
    collapseSlashes_eq_self (noAdj_sanitize_path s)
  have h3 : stripSlashes (sanitize_path s) = sanitize_path s := by
    show stripSlashes (stripSlashes (collapseSlashes (removeBadPath s))) = _
    rw [stripSlashes_idem]
    rfl
  show stripSlashes (collapseSlashes (removeBadPath (sanitize_path s))) = sanitize_path s
  rw [h1, h2, h3]

theorem mem_sanitize_filename {c : Char} {s : List Char} (h : c ∈ sanitize_filename s) :
    badFileChar c = false ∧ c ≠ ' ' := by
  have h1 : c ∈ replaceSpaces (removeBadFile s) := by
    unfold sanitize_filename truncate200 at h
    split at h
    · exact (List.take_sublist _ _).subset h
    · exact h
  obtain ⟨d, hd, hdc⟩ := List.mem_map.mp h1
  have hbad : badFileChar d = false := by simpa using (List.mem_filter.mp hd).2
  by_cases hsp : (d == ' ') = true
  · have : c = '_' := by rw [← hdc, if_pos hsp]
    subst this
    exact ⟨by decide, by decide⟩
  · have hcd : c = d := by rw [← hdc, if_neg hsp]
    subst hcd
    refine ⟨hbad, ?_⟩
    intro hce
    exact hsp (by simp [hce])

theorem length_sanitize_filename_le (s : List Char) : (sanitize_filename s).length ≤ 200 := by
  unfold sanitize_filename truncate200
  split
  · simpa using Nat.min_le_left 200 _
  · omega

theorem map_eq_self_of_forall {f : Char → Char} :
    ∀ {l : List Char}, (∀ c ∈ l, f c = c) → l.map f = l
  | [], _ => rfl
  | c :: rest, h => by
    rw [List.map_cons, h c (List.mem_cons_self _ _),
      map_eq_self_of_forall fun d hd => h d (List.mem_cons_of_mem _ hd)]

theorem sanitize_filename_idem (s : List Char) :
    sanitize_filename (sanitize_filename s) = sanitize_filename s := by
  have h1 : removeBadFile (sanitize_filename s) = sanitize_filename s := by
    apply List.filter_eq_self.mpr
    intro c hc
    simp [(mem_sanitize_filename hc).1]
  have h2 : replaceSpaces (sanitize_filename s) = sanitize_filename s := by
    unfold replaceSpaces
    apply map_eq_self_of_forall
    intro c hc
    have := (mem_sanitize_filename hc).2
    rw [if_neg (by simpa using this)]
  show truncate200 (replaceSpaces (removeBadFile (sanitize_filename s))) = sanitize_filename s
  rw [h1, h2]
  unfold truncate200
  rw [if_neg (by simpa using Nat.not_lt.mpr (length_sanitize_filename_le s))]

/-! ### C6 -/

/-- C6: `_sanitize_path` and `_sanitize_filename` are idempotent, and neither output
ever contains one of the characters `< > : " | ? *`. -/
theorem sanitize_idempotent_and_safe (s : List Char) :
    sanitize_path (sanitize_path s) = sanitize_path s ∧
    sanitize_filename (sanitize_filename s) = sanitize_filename s ∧
    (∀ c ∈ sanitize_path s, badPathChar c = false) ∧
    (∀ c ∈ sanitize_filename s, badPathChar c = false) := by
  refine ⟨sanitize_path_idem s, sanitize_filename_idem s, fun c hc => mem_sanitize_path hc,
    fun c hc => ?_⟩
  have := (mem_sanitize_filename hc).1
  unfold badFileChar at this
  rcases Bool.or_eq_false_iff.mp this with ⟨h1, _⟩
  exact Bool.or_eq_false_iff.mp h1 |>.1

/-- C6 witness: the theorem applied at the concrete input `"a//b<? c/"`. -/
theorem sanitize_idempotent_and_safe_witness :
    sanitize_path (sanitize_path "a//b<? c/".data) = sanitize_path "a//b<? c/".data ∧
    'a' ∈ sanitize_path "a//b<? c/".data ∧ badPathChar 'a' = false ∧
    'a' ∈ sanitize_filename "a//b<? c/".data ∧ badPathChar 'a' = false := by
  obtain ⟨h1, _, h3, h4⟩ := sanitize_idempotent_and_safe "a//b<? c/".data
  have m1 : 'a' ∈ sanitize_path "a//b<? c/".data := by decide
  have m2 : 'a' ∈ sanitize_filename "a//b<? c/".data := by decide
  exact ⟨h1, m1, h3 'a' m1, m2, h4 'a' m2⟩

/-! ### C5 -/

/-- C5 counterexample: for a 250-character title the full artifact filename built at
pdf_exporter.py line 574 has 208 characters, exceeding the claimed 200-character bound
(only the title component is truncated to 200 characters; `_<id>.pdf` is appended after). -/
theorem artifactFilename_exceeds_200 :
    200 < (artifactFilename (List.replicate 250 'a') "123".data).length := by decide

/-- C5 amended: the sanitized-title component never exceeds 200 characters, the
truncation removes characters only from the title (the `_<id>.pdf` suffix survives
intact), but the full filename has length `|sanitized title| + |id| + 5` and is
therefore not itself bounded by 200. -/
theorem artifactFilename_structure (title pid : List Char) :
    (sanitize_filename title).length ≤ 200 ∧
    (artifactFilename title pid).length = (sanitize_filename title).length + (pid.length + 5) ∧
    ('_' :: (pid ++ ".pdf".data)) <:+ artifactFilename title pid := by
  refine ⟨length_sanitize_filename_le title, ?_, ⟨sanitize_filename title, rfl⟩⟩
  have h4 : (".pdf".data).length = 4 := by decide
  simp only [artifactFilename, List.length_append, List.length_cons, h4]

/-! ## ContentGraphExplorer: the discovery loop of `main` (src/main.py lines 70-194)

The queue items of `todo_queue` are tuples `(content_id, content_type, relative_path,
content_dict)`; `content_dict` is `None` when the item still has to be fetched.
A content dict is modelled by its fields read anywhere in `main.py`: `id` (always
present in API results), `title` (read with `.get`, hence optional) and `type`
(read with `.get('type', 'page')` in the space branch, hence optional). -/

/-- The queue-item content types that `main` dispatches on; any other `type` string
found in a space listing falls through both the `page` and `folder` branches. -/
inductive CType
  | page
  | folder
  | other
deriving DecidableEq, Repr

structure Content where
  id : List Char
  title : Option (List Char)
  typ : Option (List Char)
deriving DecidableEq, Repr

structure QItem where
  id : List Char
  ctype : CType
  path : List Char
  content : Option Content
deriving DecidableEq, Repr

/-- The remote ContentRepository as `main` consumes it: `_get_folder_contents(id,'page')`,
`_get_folder_contents(id,'folder')` and `_get_content_info(id)`.  A `none` result models
the fetch raising an exception (the loop treats it as "no children" resp. "skip node"). -/
structure Repo where
  childPages : List Char → Option (List Content)
  childFolders : List Char → Option (List Content)
  getInfo : List Char → Option Content

structure TState where
  queue : List QItem
  processed : List (List Char)
  results : List (Content × List Char)
deriving DecidableEq, Repr

/-- `f"{current_path}/{name}" if current_path else name` (main.py lines 150 and 191). -/
def joinPath (p s : List Char) : List Char := if p = [] then s else p ++ '/' :: s

/-- One iteration of the `while todo_queue:` loop of `main` (main.py lines 125-194). -/
def step (repo : Repo) (s : TState) : TState :=
  match s.queue with
  | [] => s
  | i :: rest =>
    if i.id ∈ s.processed then { s with queue := rest }
    else
      let processed := s.processed ++ [i.id]
      match (match i.content with | some c => some c | none => repo.getInfo i.id) with
      | none => { queue := rest, processed := processed, results := s.results }
      | some c =>
        match i.ctype with
        | .page =>
          let childPath := joinPath i.path (c.title.getD ("page_".data ++ i.id))
          let pageItems := (((repo.childPages i.id).getD []).filter
              fun ch => ch.id ∉ processed).map
              fun ch => QItem.mk ch.id .page childPath (some ch)
          let folderItems := (((repo.childFolders i.id).getD []).filter
              fun ch => ch.id ∉ processed).map
              fun ch => QItem.mk ch.id .folder
                (childPath ++ '/' :: ch.title.getD ("folder_".data ++ ch.id)) (some ch)
          { queue := rest ++ pageItems ++ folderItems,
            processed := processed,
            results := s.results ++ [(c, i.path)] }
        | .folder =>
          let pageItems := (((repo.childPages i.id).getD []).filter
              fun ch => ch.id ∉ processed).map
              fun ch => QItem.mk ch.id .page i.path (some ch)
          let folderItems := (((repo.childFolders i.id).getD []).filter
              fun ch => ch.id ∉ processed).map
              fun ch => QItem.mk ch.id .folder
                (joinPath i.path (ch.title.getD ("folder_".data ++ ch.id))) (some ch)
          { queue := rest ++ pageItems ++ folderItems,
            processed := processed,
            results := s.results }
        | .other =>
          { queue := rest, processed := processed, results := s.results }

/-- The `while todo_queue:` loop run for at most `fuel` iterations. -/
def runT (repo : Repo) : Nat → TState → TState
  | 0, s => s
  | fuel + 1, s =>
    match s.queue with
    | [] => s
    | _ :: _ => runT repo fuel (step repo s)

/-! ### C2: no ID is exported twice -/

def resIds (s : TState) : List (List Char) := s.results.map fun r => r.1.id

/-- Queue well-formedness: every queue item carrying a content dict carries one whose
`id` is the item's own id (true of every enqueue site in `main`). -/
def QueueWF (q : List QItem) : Prop :=
  ∀ i ∈ q, ∀ c, i.content = some c → c.id = i.id

/-- Repository well-formedness: `_get_content_info(id)` returns content with that id. -/
def RepoWF (repo : Repo) : Prop :=
  ∀ x c, repo.getInfo x = some c → c.id = x

def Inv (s : TState) : Prop :=
  (resIds s).Nodup ∧ (∀ x ∈ resIds s, x ∈ s.processed) ∧ QueueWF s.queue

theorem processed_step_subset (repo : Repo) (s : TState) :
    s.processed ⊆ (step repo s).processed := by
  unfold step
  rcases s.queue with _ | ⟨i, rest⟩
  · exact fun x h => h
  · dsimp only
    split
    · exact fun x h => h
    · rcases hinfo : (match i.content with | some c => some c | none => repo.getInfo i.id)
        with _ | c
      · simpa [hinfo] using List.subset_append_left _ _
      · rcases i.ctype with _ | _ | _ <;>
          simpa [hinfo] using List.subset_append_left s.processed [i.id]

theorem results_step_grow (repo : Repo) (s : TState) :
    s.results <+: (step repo s).results := by
  rcases hq : s.queue with _ | ⟨i, rest⟩ <;> simp only [step, hq]
  · exact List.prefix_refl _
  · by_cases hp : i.id ∈ s.processed
    · simp only [if_pos hp]
      exact List.prefix_refl _
    · simp only [if_neg hp]
      rcases hinfo : (match i.content with | some c => some c | none => repo.getInfo i.id)
        with _ | c <;> simp only [hinfo]
      · exact List.prefix_refl _
      · rcases hct : i.ctype with _ | _ | _ <;> simp only [hct]
        · exact ⟨[(c, i.path)], rfl⟩
        · exact List.prefix_refl _
        · exact List.prefix_refl _

theorem runT_results_grow (repo : Repo) :
    ∀ (fuel : Nat) (s : TState), s.results <+: (runT repo fuel s).results
  | 0, s => List.prefix_refl _
  | fuel + 1, s => by
    rw [runT]
    rcases hq : s.queue with _ | ⟨i, rest⟩
    · exact List.prefix_refl _
    · exact (results_step_grow repo s).trans (runT_results_grow repo fuel (step repo s))

theorem step_inv (repo : Repo) (hrepo : RepoWF repo) {s : TState} (h : Inv s) :
    Inv (step repo s) := by
  obtain ⟨hnd, hsub, hwf⟩ := h
  rcases hq : s.queue with _ | ⟨i, rest⟩
  · simpa only [step, hq] using ⟨hnd, hsub, hwf⟩
  · have hwfRest : QueueWF rest := fun j hj => hwf j (hq ▸ List.mem_cons_of_mem i hj)
    by_cases hp : i.id ∈ s.processed
    · simp only [step, hq, if_pos hp]
      exact ⟨hnd, hsub, hwfRest⟩
    · have hcid : ∀ c, (match i.content with
          | some c => some c
          | none => repo.getInfo i.id) = some c → c.id = i.id := by
        intro c hc
        rcases hic : i.content with _ | c0
        · rw [hic] at hc
          exact hrepo i.id c hc
        · rw [hic] at hc
          cases hc
          exact hwf i (hq ▸ List.mem_cons_self i rest) c hic
      simp only [step, hq, if_neg hp]
      rcases hinfo : (match i.content with | some c => some c | none => repo.getInfo i.id)
        with _ | c <;> simp only [hinfo]
      · refine ⟨hnd, fun x hx => ?_, hwfRest⟩
        exact List.mem_append_left _ (hsub x hx)
      · have hcidi : c.id = i.id := hcid c hinfo
        have hwfQueue : ∀ pI fI : List QItem,
            (∀ j ∈ pI, ∀ c', j.content = some c' → c'.id = j.id) →
            (∀ j ∈ fI, ∀ c', j.content = some c' → c'.id = j.id) →
            QueueWF (rest ++ pI ++ fI) := by
          intro pI fI hP hF j hj c' hc'
          rcases List.mem_append.mp hj with hj1 | hj1
          · rcases List.mem_append.mp hj1 with hj2 | hj2
            · exact hwfRest j hj2 c' hc'
            · exact hP j hj2 c' hc'
          · exact hF j hj1 c' hc'
        have hmapWF : ∀ (ct : CType) (f : Content → List Char) (l : List Content),
            ∀ j ∈ l.map fun ch => QItem.mk ch.id ct (f ch) (some ch),
            ∀ c', j.content = some c' → c'.id = j.id := by
          intro ct f l j hj c' hc'
          obtain ⟨ch, _, rfl⟩ := List.mem_map.mp hj
          cases hc'
          rfl
        rcases hct : i.ctype with _ | _ | _ <;> simp only [hct]
        · -- page: a result is appended
          refine ⟨?_, ?_, ?_⟩
          · show ((s.results ++ [(c, i.path)]).map fun r => r.1.id).Nodup
            simp only [List.map_append, List.map_cons, List.map_nil]
            refine List.nodup_append.mpr ⟨hnd, List.nodup_singleton _, ?_⟩
            intro x hx hx1
            have hxc : x = c.id := List.mem_singleton.mp hx1
            subst hxc
            exact hp (hcidi ▸ hsub _ hx)
          · show ∀ x ∈ (s.results ++ [(c, i.path)]).map fun r => r.1.id,
              x ∈ s.processed ++ [i.id]
            simp only [List.map_append, List.map_cons, List.map_nil]
            intro x hx
            rcases List.mem_append.mp hx with h1 | h1
            · exact List.mem_append_left _ (hsub x h1)
            · have hxc : x = c.id := List.mem_singleton.mp h1
              subst hxc
              rw [hcidi]
              exact List.mem_append_right _ (List.mem_singleton_self _)
          · exact hwfQueue _ _ (hmapWF _ _ _) (hmapWF _ _ _)
        · -- folder: no result appended
          exact ⟨hnd, fun x hx => List.mem_append_left _ (hsub x hx),
            hwfQueue _ _ (hmapWF _ _ _) (hmapWF _ _ _)⟩
        · -- other content type: node is consumed, nothing added
          exact ⟨hnd, fun x hx => List.mem_append_left _ (hsub x hx), hwfRest⟩

theorem runT_inv (repo : Repo) (hrepo : RepoWF repo) :
    ∀ (fuel : Nat) {s : TState}, Inv s → Inv (runT repo fuel s)
  | 0, s, h => h
  | fuel + 1, s, h => by
    rw [runT]
    rcases hq : s.queue with _ | ⟨i, rest⟩
    · exact h
    · exact runT_inv repo hrepo fuel (step_inv repo hrepo h)

/-- C2: for every repository behaviour and every initial queue, the discovery loop
never exports the same content ID twice: every dequeued ID already in `processed_ids`
is skipped, a newly dequeued ID enters `processed_ids` before its `(content, path)`
pair is appended, and hence the exported list `all_pages_with_paths` has pairwise
distinct content IDs, each of which is recorded in `processed_ids`. -/
theorem traversal_no_duplicate_ids (repo : Repo) (fuel : Nat) (q0 : List QItem)
    (hrepo : RepoWF repo) (hq0 : QueueWF q0) :
    (resIds (runT repo fuel ⟨q0, [], []⟩)).Nodup ∧
    (∀ x ∈ resIds (runT repo fuel ⟨q0, [], []⟩),
      x ∈ (runT repo fuel ⟨q0, [], []⟩).processed) := by
  have h0 : Inv ⟨q0, [], []⟩ := ⟨List.nodup_nil, by simp [resIds], hq0⟩
  obtain ⟨h1, h2, _⟩ := runT_inv repo hrepo fuel h0
  exact ⟨h1, h2⟩

/-- C2 witness: the theorem applied to the scenario repository of C1 below, whose
`getInfo` never succeeds and whose seed queue item carries its own content dict. -/
theorem traversal_no_duplicate_ids_witness :
    (resIds (runT ⟨fun _ => some [], fun _ => some [], fun _ => none⟩ 5
        ⟨[⟨"x".data, CType.page, [], some ⟨"x".data, none, none⟩⟩], [], []⟩)).Nodup ∧
    (∀ x ∈ resIds (runT ⟨fun _ => some [], fun _ => some [], fun _ => none⟩ 5
        ⟨[⟨"x".data, CType.page, [], some ⟨"x".data, none, none⟩⟩], [], []⟩),
      x ∈ (runT ⟨fun _ => some [], fun _ => some [], fun _ => none⟩ 5
        ⟨[⟨"x".data, CType.page, [], some ⟨"x".data, none, none⟩⟩], [], []⟩).processed) := by
  have hrepo : RepoWF ⟨fun _ => some [], fun _ => some [], fun _ => none⟩ := by
    intro x c h
    cases h
  have hq0 : QueueWF [⟨"x".data, CType.page, [], some ⟨"x".data, none, none⟩⟩] := by
    intro i hi c hc
    rcases List.mem_singleton.mp hi with rfl
    cases hc
    rfl
  exact traversal_no_duplicate_ids _ 5 _ hrepo hq0

/-! ### C1: path composition -/

/-- Content nodes of the end-to-end scenario of the claim: a folder `F` containing a
page `P1` and a subfolder `F2` which contains a page `P2`. -/
def cF : Content := ⟨"folder1".data, some "F".data, none⟩

def cP1 : Content := ⟨"page1".data, some "P1".data, none⟩

def cF2 : Content := ⟨"folder2".data, some "F2".data, none⟩

def cP2 : Content := ⟨"page2".data, some "P2".data, none⟩

def repoScenF : Repo :=
  { childPages := fun i =>
      if i = "folder1".data then some [cP1]
      else if i = "folder2".data then some [cP2]
      else some []
    childFolders := fun i => if i = "folder1".data then some [cF2] else some []
    getInfo := fun _ => none }

/-- Content nodes of a second scenario exercising the page-dequeue rule: a page `Q`
with a page child `Q1` and a folder child `G` which contains a page `Q2`. -/
def cQ : Content := ⟨"q0".data, some "Q".data, none⟩

def cQ1 : Content := ⟨"q1".data, some "Q1".data, none⟩

def cG : Content := ⟨"g1".data, some "G".data, none⟩

def cQ2 : Content := ⟨"q2".data, some "Q2".data, none⟩

def repoScenQ : Repo :=
  { childPages := fun i =>
      if i = "q0".data then some [cQ1]
      else if i = "g1".data then some [cQ2]
      else some []
    childFolders := fun i => if i = "q0".data then some [cG] else some []
    getInfo := fun _ => none }

/-- C1: path composition during traversal.  For a dequeued page the `(content, path)`
pair is appended at the page's current path, page children are enqueued at
current-path + page title and folder children at current-path + page title + folder
title; for a dequeued folder, page children keep the folder's current path and
subfolders get current-path + subfolder title.  The folder scenario `F ⊃ {P1, F2 ⊃ P2}`
(seeded as `main`'s folder branch does, with the folder title as initial path) yields
exactly `[(P1, "F"), (P2, "F/F2")]`, and the page scenario `Q ⊃ {Q1, G ⊃ Q2}` yields
`[(Q, ""), (Q1, "Q"), (Q2, "Q/G")]`. -/
theorem path_composition (repo : Repo) (s : TState) (i : QItem) (rest : List QItem)
    (c : Content) (hq : s.queue = i :: rest) (hp : i.id ∉ s.processed)
    (hc : i.content = some c) :
    (i.ctype = CType.page →
      (step repo s).results = s.results ++ [(c, i.path)] ∧
      (step repo s).queue =
        rest
        ++ (((repo.childPages i.id).getD []).filter
              fun ch => ch.id ∉ s.processed ++ [i.id]).map
            (fun ch => QItem.mk ch.id CType.page
              (joinPath i.path (c.title.getD ("page_".data ++ i.id))) (some ch))
        ++ (((repo.childFolders i.id).getD []).filter
              fun ch => ch.id ∉ s.processed ++ [i.id]).map
            (fun ch => QItem.mk ch.id CType.folder
              (joinPath i.path (c.title.getD ("page_".data ++ i.id))
                ++ '/' :: ch.title.getD ("folder_".data ++ ch.id)) (some ch))) ∧
    (i.ctype = CType.folder →
      (step repo s).results = s.results ∧
      (step repo s).queue =
        rest
        ++ (((repo.childPages i.id).getD []).filter
              fun ch => ch.id ∉ s.processed ++ [i.id]).map
            (fun ch => QItem.mk ch.id CType.page i.path (some ch))
        ++ (((repo.childFolders i.id).getD []).filter
              fun ch => ch.id ∉ s.processed ++ [i.id]).map
            (fun ch => QItem.mk ch.id CType.folder
              (joinPath i.path (ch.title.getD ("folder_".data ++ ch.id))) (some ch))) ∧
    (runT repoScenF 10 ⟨[⟨cF.id, CType.folder, "F".data, some cF⟩], [], []⟩).results =
      [(cP1, "F".data), (cP2, "F/F2".data)] ∧
    (runT repoScenQ 10 ⟨[⟨cQ.id, CType.page, [], some cQ⟩], [], []⟩).results =
      [(cQ, []), (cQ1, "Q".data), (cQ2, "Q/G".data)] := by
  refine ⟨?_, ?_, by decide, by decide⟩
  · intro hpage
    simp only [step, hq, if_neg hp, hc, hpage]
    exact ⟨trivial, trivial⟩
  · intro hfolder
    simp only [step, hq, if_neg hp, hc, hfolder]
    exact ⟨trivial, trivial⟩

/-- C1 witness: the theorem applied to the seed state of the folder scenario. -/
theorem path_composition_witness :
    (step repoScenF ⟨[⟨cF.id, CType.folder, "F".data, some cF⟩], [], []⟩).results = [] ∧
    (step repoScenF ⟨[⟨cF.id, CType.folder, "F".data, some cF⟩], [], []⟩).queue =
      [⟨cP1.id, CType.page, "F".data, some cP1⟩,
       ⟨cF2.id, CType.folder, "F/F2".data, some cF2⟩] := by
  obtain ⟨_, hfold, _, _⟩ :=
    path_composition repoScenF ⟨[⟨cF.id, CType.folder, "F".data, some cF⟩], [], []⟩
      ⟨cF.id, CType.folder, "F".data, some cF⟩ [] cF rfl (by decide) rfl
  obtain ⟨h1, h2⟩ := hfold rfl
  refine ⟨h1, ?_⟩
  rw [h2]
  decide

/-! ## ConfluenceClient surface (src/confluence_client.py) -/

/-- The instance attributes assigned by `ConfluenceClient.__init__`
(confluence_client.py lines 13-36): `username`, `api_token`, `page_url`, then the
triple unpacked from `_parse_confluence_url` (`base_url`, `page_id`, `is_folder`),
`api_base` and `session`. -/
def clientInitAttrs : List String :=
  ["username", "api_token", "page_url", "base_url", "page_id", "is_folder",
   "api_base", "session"]

/-- The methods defined on class `ConfluenceClient` (confluence_client.py lines 10-534). -/
def clientMethods : List String :=
  ["__init__", "_parse_confluence_url", "_make_request", "get_page_info",
   "get_page_content", "get_page_properties", "get_child_pages",
   "get_pages_in_folder", "_get_folder_contents", "get_folder_info",
   "get_page_attachments", "download_attachment",
   "get_pages_in_folder_with_structure", "_get_content_info",
   "get_child_pages_and_folders_with_structure"]

/-! ### C3: `main` reads the undefined attribute `confluence.is_space` -/

structure MainOutcome where
  exitCode : Option Nat
  exported : List (Content × List Char)
deriving DecidableEq, Repr

/-- `content.get('type', 'page')` dispatched the way the traversal loop dispatches on
`content_type` (exact string comparison against `'page'` and `'folder'`). -/
def typeOfStr (t : List Char) : CType :=
  if t = "page".data then CType.page
  else if t = "folder".data then CType.folder
  else CType.other

/-- Lines 196-198 and normal completion of `main`: `sys.exit(0)` when no page was
discovered, otherwise the discovered pages are exported. -/
def finishRun (s : TState) : MainOutcome :=
  if s.results = [] then { exitCode := some 0, exported := [] }
  else { exitCode := none, exported := s.results }

/-- The body of `main` from line 61 (after the output directory is created) to
line 249, for an invocation in which `ConfluenceClient(confluence_url, ...)` was
constructed successfully.  `attrs` are the instance attributes the constructor
defined, `methods` the class methods; reading a missing attribute or method raises
`AttributeError`, which the `except Exception` handler at line 247 turns into
`sys.exit(1)`.  `isSpace` and `isFolder` are the hypothetical values of the
attribute reads at lines 76 and 104; `pageId` is `confluence.page_id`. -/
def mainModel (attrs methods : List String) (isSpace isFolder : Bool)
    (pageId : List Char) (folderInfo pageInfo : Content)
    (spaceContent : List Content) (repo : Repo) (fuel : Nat) : MainOutcome :=
  if "is_space" ∈ attrs then
    if isSpace then
      if "space_key" ∈ attrs ∧ "get_space_info" ∈ methods
          ∧ "get_space_content" ∈ methods then
        let q0 := spaceContent.map fun c =>
          let t := c.typ.getD "page".data
          if t = "folder".data then
            QItem.mk c.id CType.folder (c.title.getD ("folder_".data ++ c.id)) (some c)
          else QItem.mk c.id (typeOfStr t) [] (some c)
        finishRun (runT repo fuel ⟨q0, [], []⟩)
      else { exitCode := some 1, exported := [] }
    else if "is_folder" ∈ attrs then
      if isFolder then
        if "get_folder_info" ∈ methods then
          finishRun (runT repo fuel
            ⟨[QItem.mk pageId CType.folder
                (folderInfo.title.getD "Unnamed Folder".data) (some folderInfo)], [], []⟩)
        else { exitCode := some 1, exported := [] }
      else
        if "get_page_info" ∈ methods then
          finishRun (runT repo fuel
            ⟨[QItem.mk pageInfo.id CType.page [] (some pageInfo)], [], []⟩)
        else { exitCode := some 1, exported := [] }
    else { exitCode := some 1, exported := [] }
  else { exitCode := some 1, exported := [] }

/-- C3: `__init__` never assigns `is_space`, so for every invocation that constructs
the client successfully, the attribute read `confluence.is_space` at main.py line 76
raises `AttributeError` before any page is discovered or exported, and the top-level
handler exits with status 1. -/
theorem main_always_exits_one (methods : List String) (isSpace isFolder : Bool)
    (pageId : List Char) (folderInfo pageInfo : Content)
    (spaceContent : List Content) (repo : Repo) (fuel : Nat) :
    "is_space" ∉ clientInitAttrs ∧
    mainModel clientInitAttrs methods isSpace isFolder pageId folderInfo pageInfo
      spaceContent repo fuel = { exitCode := some 1, exported := [] } := by
  refine ⟨by decide, ?_⟩
  unfold mainModel
  rw [if_neg (by decide)]

/-! ### C10: `export_to_pdf` never renders a version-history section -/

inductive DocSection
  | contributors
  | body
  | attachmentsList
  | versionHistory
deriving DecidableEq, Repr

/-- The document-section composition of `export_to_pdf` (pdf_exporter.py lines
597-629): the cleaned body, a contributors block prepended when present, an
attachments block appended when attachments exist, and a version-history table
appended when `confluence_client.get_version_history(page_id)` succeeds and returns
a non-empty list — the call is inside `try`, and any exception (in particular the
`AttributeError` for a missing method) is swallowed at line 625. -/
def composedSections {α : Type} (hasContributors hasAttachments hasClient : Bool)
    (methods : List String) (versions : List α) : List DocSection :=
  let s1 := [DocSection.body]
  let s2 := if hasContributors then DocSection.contributors :: s1 else s1
  let s3 := if hasAttachments then s2 ++ [DocSection.attachmentsList] else s2
  if hasClient then
    if "get_version_history" ∈ methods then
      match versions with
      | [] => s3
      | _ :: _ => s3 ++ [DocSection.versionHistory]
    else s3
  else s3

/-- C10: `ConfluenceClient` defines no method `get_version_history`, so for every
call of `export_to_pdf` with a non-None `confluence_client` the version-history
fetch raises `AttributeError`, the surrounding `try`/`except` suppresses it, and
the rendered document never contains a version-history section. -/
theorem version_history_never_rendered {α : Type} (hasContributors hasAttachments : Bool)
    (versions : List α) :
    "get_version_history" ∉ clientMethods ∧
    DocSection.versionHistory ∉
      composedSections hasContributors hasAttachments true clientMethods versions := by
  refine ⟨by decide, ?_⟩
  unfold composedSections
  rw [if_pos rfl, if_neg (by decide)]
  rcases hasContributors <;> rcases hasAttachments <;> decide

/-! ## `export_to_pdf` filesystem behaviour (src/pdf_exporter.py lines 549-642)

The function's filesystem effects are modelled as an ordered list of operations.
`os.path.join(a, b)` for the relative second components used here is `a + "/" + b`. -/

inductive FsOp
  | mkdirOutput (path : List Char)
  | mkdirAttachments (path : List Char)
  | download (title dest : List Char)
  | renderPdf (dest : List Char)
  | writeHtml (dest : List Char)
  | rename (src dst : List Char)
deriving DecidableEq, Repr

/-- `filepath.replace('.pdf', '.html')` (pdf_exporter.py line 639): Python's
`str.replace` substitutes every non-overlapping occurrence, scanning left to right. -/
def replacePdfWithHtml : List Char → List Char
  | '.' :: 'p' :: 'd' :: 'f' :: rest =>
    '.' :: 'h' :: 't' :: 'm' :: 'l' :: replacePdfWithHtml rest
  | c :: rest => c :: replacePdfWithHtml rest
  | [] => []

/-- Whether the substring `.pdf` occurs. -/
def hasPdf : List Char → Bool
  | '.' :: 'p' :: 'd' :: 'f' :: _ => true
  | _ :: rest => hasPdf rest
  | [] => false

theorem hasPdf_tail {c : Char} {l : List Char} (h : hasPdf (c :: l) = false) :
    hasPdf l = false := by
  rw [hasPdf.eq_def] at h
  split at h
  · exact absurd h (by simp)
  · rename_i c' rest hnm heq
    injection heq with h1 h2
    subst h2
    exact h
  · rename_i heq
    exact absurd heq (by simp)

theorem replace_cons_of_head_ne {a : Char} (h : a ≠ '.') (l : List Char) :
    replacePdfWithHtml (a :: l) = a :: replacePdfWithHtml l := by
  rw [replacePdfWithHtml.eq_def]
  split
  · rename_i rest heq
    injection heq with h1 h2
    exact absurd h1 h
  · rename_i c rest hnm heq
    injection heq with h1 h2
    subst h1
    subst h2
    rfl
  · rename_i heq
    exact absurd heq (by simp)

theorem replace_cons_of_take_ne {l : List Char}
    (h : ¬(l.take 3 = ['p', 'd', 'f'])) :
    replacePdfWithHtml ('.' :: l) = '.' :: replacePdfWithHtml l := by
  rw [replacePdfWithHtml.eq_def]
  split
  · rename_i rest heq
    injection heq with h1 h2
    subst h2
    simp at h
  · rename_i c rest hnm heq
    injection heq with h1 h2
    subst h1
    subst h2
    rfl
  · rename_i heq
    exact absurd heq (by simp)

/-- If `.pdf` does not occur in `pre`, replacing `.pdf` by `.html` in `pre ++ ".pdf"`
rewrites exactly the final extension. -/
theorem replace_append_pdf :
    ∀ pre : List Char, hasPdf pre = false →
      replacePdfWithHtml (pre ++ ".pdf".data) = pre ++ ".html".data
  | [], _ => by decide
  | c :: pre, h => by
    have htl : hasPdf pre = false := hasPdf_tail h
    by_cases hc : c = '.'
    · subst hc
      by_cases htake : (pre ++ ".pdf".data).take 3 = ['p', 'd', 'f']
      · exfalso
        have pdat : ".pdf".data = ['.', 'p', 'd', 'f'] := by decide
        rw [pdat] at htake
        rcases pre with _ | ⟨a, _ | ⟨b, _ | ⟨d, rest⟩⟩⟩
        · simp at htake
        · simp at htake
        · simp at htake
        · simp at htake
          obtain ⟨rfl, rfl, rfl⟩ := htake
          rw [show hasPdf ('.' :: 'p' :: 'd' :: 'f' :: rest) = true from rfl] at h
          exact absurd h (by simp)
      · rw [List.cons_append, replace_cons_of_take_ne htake,
          replace_append_pdf pre htl, List.cons_append]
    · rw [List.cons_append, replace_cons_of_head_ne hc,
        replace_append_pdf pre htl, List.cons_append]

/-- `output_subdir` (pdf_exporter.py lines 567-572). -/
def outputSubdir (outputDir relativePath : List Char) : List Char :=
  if relativePath ≠ [] then outputDir ++ '/' :: sanitize_path relativePath else outputDir

/-- `filepath = os.path.join(output_subdir, filename)` (pdf_exporter.py line 575). -/
def artifactPath (outputDir title pid relativePath : List Char) : List Char :=
  outputSubdir outputDir relativePath ++ '/' :: artifactFilename title pid

/-- `attachments_folder_name = f"{sanitized}_{page_id}_attachments"` (line 581). -/
def attachmentsDirName (title pid : List Char) : List Char :=
  sanitize_filename title ++ '_' :: (pid ++ "_attachments".data)

/-- `attachments_dir = os.path.join(output_subdir, attachments_folder_name)` (line 582). -/
def attachmentsDir (outputDir title pid relativePath : List Char) : List Char :=
  outputSubdir outputDir relativePath ++ '/' :: attachmentsDirName title pid

/-- POSIX `os.path.join(a, b)` for a non-empty `a` without a trailing slash: if `b`
is absolute (begins with `/`), it discards `a` entirely; otherwise the result is
`a + '/' + b`.  The joins at pdf_exporter.py lines 569, 575 and 582 receive second
components produced by the sanitizers, which remove or strip `/`, so they can never
be absolute and are written above as plain concatenation; the join at line 589
receives the raw attachment title and needs the absolute case. -/
def pyJoin (a b : List Char) : List Char :=
  if b.head? = some '/' then b else a ++ '/' :: b

/-- The ordered filesystem operations of one `export_to_pdf` call
(pdf_exporter.py lines 549-642).  `title`/`pid` are `page_info.get('title','Untitled')`
and `page_info.get('id','unknown')`; `attTitles` the attachments' `.get('title','unknown')`
values; `hasClient` whether `confluence_client` is non-None; `renderOk` whether
`HTML(...).write_pdf(filepath)` succeeds.  On render failure the composed HTML is
written to `filepath.replace('.pdf', '.html')` and no exception escapes. -/
def export_to_pdf_ops (outputDir title pid : List Char) (attTitles : List (List Char))
    (relativePath : List Char) (hasClient renderOk : Bool) : List FsOp :=
  let subdir := outputSubdir outputDir relativePath
  let dirOps := if relativePath ≠ [] then [FsOp.mkdirOutput subdir] else []
  let filepath := artifactPath outputDir title pid relativePath
  let attOps :=
    match attTitles with
    | [] => []
    | _ :: _ =>
      let adir := attachmentsDir outputDir title pid relativePath
      FsOp.mkdirAttachments adir ::
        (if hasClient then attTitles.map fun t => FsOp.download t (pyJoin adir t)
         else [])
  let renderOps :=
    if renderOk then [FsOp.renderPdf filepath]
    else [FsOp.renderPdf filepath, FsOp.writeHtml (replacePdfWithHtml filepath)]
  dirOps ++ attOps ++ renderOps

def isRename : FsOp → Bool
  | .rename _ _ => true
  | _ => false

/-! ### C4 -/

/-- C4 counterexample: on a failing render the trace contains a render call aimed
directly at the final artifact path and no rename at all, so no
temporary-file-then-move discipline protects the artifact path. -/
theorem render_failure_writes_directly :
    FsOp.renderPdf "output/Doc_9.pdf".data ∈
      export_to_pdf_ops "output".data "Doc".data "9".data [] [] true false ∧
    ((export_to_pdf_ops "output".data "Doc".data "9".data [] [] true false).all
      fun op => !(isRename op)) = true := by
  exact ⟨by decide, by decide⟩

/-- C4 amended: `export_to_pdf` performs no rename whatsoever; the rendering engine
is invoked directly on the final artifact path, and a render failure only appends
the debugging-HTML write to the trace of the successful case — whether a partial
artifact remains at the artifact path is up to the rendering engine, not guarded
by the exporter. -/
theorem render_ops_no_rename (outputDir title pid : List Char)
    (attTitles : List (List Char)) (relativePath : List Char) (hasClient : Bool) :
    ((export_to_pdf_ops outputDir title pid attTitles relativePath hasClient false).all
      fun op => !(isRename op)) = true ∧
    FsOp.renderPdf (artifactPath outputDir title pid relativePath) ∈
      export_to_pdf_ops outputDir title pid attTitles relativePath hasClient false ∧
    export_to_pdf_ops outputDir title pid attTitles relativePath hasClient false =
      export_to_pdf_ops outputDir title pid attTitles relativePath hasClient true
        ++ [FsOp.writeHtml (replacePdfWithHtml
              (artifactPath outputDir title pid relativePath))] := by
  refine ⟨?_, ?_, ?_⟩
  · unfold export_to_pdf_ops
    simp only [List.all_append, Bool.and_eq_true]
    refine ⟨⟨?_, ?_⟩, ?_⟩
    · split <;> simp [isRename]
    · rcases attTitles with _ | ⟨t, ts⟩
      · simp
      · simp only [List.all_cons, Bool.and_eq_true]
        refine ⟨by simp [isRename], ?_⟩
        split
        · simp [List.all_map, isRename]
        · simp
    · simp [isRename]
  · unfold export_to_pdf_ops
    refine List.mem_append_right _ ?_
    simp
  · unfold export_to_pdf_ops
    simp [List.append_assoc]

/-! ### C8 -/

/-- C8 counterexample: for the page titled `a.pdf` with id `1` the artifact path is
`out/a.pdf_1.pdf`; on render failure the debugging HTML is written to
`out/a.html_1.html` — `str.replace` rewrote the `.pdf` inside the base filename too —
and not to `out/a.pdf_1.html`, the same base filename with only the extension changed. -/
theorem debug_html_not_same_base :
    FsOp.writeHtml "out/a.html_1.html".data ∈
      export_to_pdf_ops "out".data "a.pdf".data "1".data [] [] true false ∧
    ((export_to_pdf_ops "out".data "a.pdf".data "1".data [] [] true false).all
      fun op => !(op == FsOp.writeHtml "out/a.pdf_1.html".data)) = true := by
  exact ⟨by decide, by decide⟩

/-- C8 amended: on render failure the composed HTML is persisted at
`filepath.replace('.pdf', '.html')`, i.e. with every occurrence of `.pdf` in the
artifact path rewritten to `.html`; whenever `.pdf` occurs nowhere in the artifact
path except as its final extension this is the same directory and the same base
filename with extension `.html`.  The failure never escapes `export_to_pdf`
(`render_ops_no_rename` shows the remaining operations still happen). -/
theorem debug_html_write (outputDir title pid : List Char) (attTitles : List (List Char))
    (relativePath : List Char) (hasClient : Bool)
    (hnp : hasPdf (outputSubdir outputDir relativePath ++ '/' ::
      (sanitize_filename title ++ '_' :: pid)) = false) :
    FsOp.writeHtml (replacePdfWithHtml (artifactPath outputDir title pid relativePath)) ∈
      export_to_pdf_ops outputDir title pid attTitles relativePath hasClient false ∧
    replacePdfWithHtml (artifactPath outputDir title pid relativePath) =
      (outputSubdir outputDir relativePath ++ '/' ::
        (sanitize_filename title ++ '_' :: pid)) ++ ".html".data := by
  constructor
  · unfold export_to_pdf_ops
    refine List.mem_append_right _ ?_
    simp
  · have hsplit : artifactPath outputDir title pid relativePath =
        (outputSubdir outputDir relativePath ++ '/' ::
          (sanitize_filename title ++ '_' :: pid)) ++ ".pdf".data := by
      unfold artifactPath artifactFilename
      simp [List.append_assoc]
    rw [hsplit, replace_append_pdf _ hnp]

/-- C8 witness: the amended theorem at `outputDir = "out"`, title `Doc`, id `1`,
relative path `Sub`, where the artifact path `out/Sub/Doc_1.pdf` contains `.pdf`
only as its extension. -/
theorem debug_html_write_witness :
    FsOp.writeHtml (replacePdfWithHtml (artifactPath "out".data "Doc".data "1".data
        "Sub".data)) ∈
      export_to_pdf_ops "out".data "Doc".data "1".data [] "Sub".data true false ∧
    replacePdfWithHtml (artifactPath "out".data "Doc".data "1".data "Sub".data) =
      (outputSubdir "out".data "Sub".data ++ '/' ::
        (sanitize_filename "Doc".data ++ '_' :: "1".data)) ++ ".html".data :=
  debug_html_write "out".data "Doc".data "1".data [] "Sub".data true (by decide)

/-! ### C9 -/

/-- C9 counterexample: the attachment titled `my file.txt` is downloaded to
`out/T_5_attachments/my file.txt` — under its raw title — and no operation targets
`out/T_5_attachments/my_file.txt`, the sanitized name the claim requires
(`_sanitize_filename` would replace the space by an underscore). -/
theorem attachment_title_not_sanitized :
    FsOp.download "my file.txt".data "out/T_5_attachments/my file.txt".data ∈
      export_to_pdf_ops "out".data "T".data "5".data ["my file.txt".data] [] true true ∧
    ((export_to_pdf_ops "out".data "T".data "5".data ["my file.txt".data] [] true true).all
      fun op => !(op == FsOp.download "my file.txt".data
        "out/T_5_attachments/my_file.txt".data)) = true := by
  exact ⟨by decide, by decide⟩

/-- C9 amended: for every page with a non-empty attachment list, `export_to_pdf`
creates the sibling directory `<sanitized-title>_<id>_attachments` next to the
artifact, and (with a client present) each attachment is downloaded to
`os.path.join(attachments_dir, raw title)` — inside the directory under the raw,
unsanitized title whenever the raw title is not an absolute path, and at the
absolute raw title path, outside the attachments directory, when it is. -/
theorem attachments_materialization (outputDir title pid : List Char)
    (attTitles : List (List Char)) (relativePath : List Char) (renderOk : Bool)
    (hne : attTitles ≠ []) :
    FsOp.mkdirAttachments (attachmentsDir outputDir title pid relativePath) ∈
      export_to_pdf_ops outputDir title pid attTitles relativePath true renderOk ∧
    ∀ t ∈ attTitles,
      FsOp.download t (pyJoin (attachmentsDir outputDir title pid relativePath) t) ∈
        export_to_pdf_ops outputDir title pid attTitles relativePath true renderOk ∧
      (t.head? ≠ some '/' →
        pyJoin (attachmentsDir outputDir title pid relativePath) t =
          attachmentsDir outputDir title pid relativePath ++ '/' :: t) ∧
      (t.head? = some '/' →
        pyJoin (attachmentsDir outputDir title pid relativePath) t = t) := by
  rcases attTitles with _ | ⟨t0, ts⟩
  · exact absurd rfl hne
  · constructor
    · unfold export_to_pdf_ops
      refine List.mem_append_left _ (List.mem_append_right _ ?_)
      exact List.mem_cons_self _ _
    · intro t ht
      refine ⟨?_, fun h => by unfold pyJoin; rw [if_neg h],
        fun h => by unfold pyJoin; rw [if_pos h]⟩
      unfold export_to_pdf_ops
      refine List.mem_append_left _ (List.mem_append_right _ ?_)
      refine List.mem_cons_of_mem _ ?_
      rw [if_pos rfl]
      exact List.mem_map.mpr ⟨t, ht, rfl⟩

/-- C9 witness: the amended theorem at a concrete page with two attachments whose
raw titles are relative, so the download lands inside the attachments directory. -/
theorem attachments_materialization_witness :
    FsOp.mkdirAttachments (attachmentsDir "out".data "T".data "5".data []) ∈
      export_to_pdf_ops "out".data "T".data "5".data
        ["a.png".data, "b c".data] [] true true ∧
    FsOp.download "b c".data
        (pyJoin (attachmentsDir "out".data "T".data "5".data []) "b c".data) ∈
      export_to_pdf_ops "out".data "T".data "5".data
        ["a.png".data, "b c".data] [] true true ∧
    pyJoin (attachmentsDir "out".data "T".data "5".data []) "b c".data =
      attachmentsDir "out".data "T".data "5".data [] ++ '/' :: "b c".data := by
  obtain ⟨h1, h2⟩ := attachments_materialization "out".data "T".data "5".data
    ["a.png".data, "b c".data] [] true (by decide)
  obtain ⟨hm, hrel, _⟩ := h2 "b c".data (by decide)
  exact ⟨h1, hm, hrel (by decide)⟩

/-! ## EnrichmentCollector: `_parse_and_sort_contributors` (pdf_exporter.py lines 27-72) -/

/-- The ASCII whitespace stripped/split by `str.strip()` and `str.split()` in the
character range display names use. -/
def isSpaceChar (c : Char) : Bool :=
  c == ' ' || c == '\t' || c == '\n' || c == '\r'

/-- Python `str.strip()` (ASCII whitespace). -/
def pyStrip (s : List Char) : List Char :=
  ((s.dropWhile isSpaceChar).reverse.dropWhile isSpaceChar).reverse

/-- Python `str.split(sep)` for a one-character separator: every occurrence splits,
empty fields are kept. -/
def pySplitOn (sep : Char) : List Char → List (List Char)
  | [] => [[]]
  | c :: rest =>
    if c == sep then [] :: pySplitOn sep rest
    else
      match pySplitOn sep rest with
      | t :: ts => (c :: t) :: ts
      | [] => [[c]]

/-- Python `str.split()` with no argument: split on whitespace runs, drop empties. -/
def splitWsAux : List Char → List Char → List (List Char)
  | [], acc => if acc = [] then [] else [acc.reverse]
  | c :: rest, acc =>
    if isSpaceChar c then
      if acc = [] then splitWsAux rest []
      else acc.reverse :: splitWsAux rest []
    else splitWsAux rest (c :: acc)

def pySplitWs (s : List Char) : List (List Char) := splitWsAux s []

/-- Python `str.lower()` on the ASCII range (`Char.toLower` lowercases `A`-`Z`). -/
def toLowerAscii (s : List Char) : List Char := s.map Char.toLower

/-- A contributor value as `get_first_name` inspects it: a dict whose `displayName`
key may be absent (`.get('displayName', '')`), or any other value via `str(...)`. -/
inductive Contrib
  | dict (displayName : Option (List Char))
  | str (shown : List Char)
deriving DecidableEq, Repr

def rawName : Contrib → List Char
  | .dict dn => dn.getD []
  | .str s => s

/-- `get_first_name` (pdf_exporter.py lines 52-68): strip the display name; if it
contains a comma and `split(',')` has more than one field, return field 1 (the text
between the first and second commas) stripped and lowercased; otherwise return the
first whitespace-separated token lowercased, or the whole name if there is none. -/
def get_first_name (contributor : Contrib) : List Char :=
  let name := pyStrip (rawName contributor)
  if ',' ∈ name ∧ (pySplitOn ',' name).length > 1 then
    toLowerAscii (pyStrip ((pySplitOn ',' name).getD 1 []))
  else
    match pySplitWs name with
    | p :: _ => toLowerAscii p
    | [] => toLowerAscii name

/-- Lexicographic order on Python strings (code-point comparison). -/
def lexLe : List Char → List Char → Bool
  | [], _ => true
  | _ :: _, [] => false
  | a :: as, b :: bs =>
    if a.toNat = b.toNat then lexLe as bs
    else decide (a.toNat < b.toNat)

/-- Stable insertion: the new element goes before the first strictly-greater key and
after every earlier element whose key is `<=` its own. -/
def insertByKey (key : Contrib → List Char) (x : Contrib) :
    List Contrib → List Contrib
  | [] => [x]
  | y :: ys =>
    if lexLe (key x) (key y) then x :: y :: ys
    else y :: insertByKey key x ys

/-- `contributors.sort(key=get_first_name)` (pdf_exporter.py line 70): CPython's sort
is stable, and a stable sort by a total preorder is unique as a function, so stable
insertion sort is an exact model of it. -/
def sortByKey (key : Contrib → List Char) : List Contrib → List Contrib
  | [] => []
  | x :: xs => insertByKey key x (sortByKey key xs)

/-- `_parse_and_sort_contributors` on list input (pdf_exporter.py lines 40-42 pass a
list through unchanged; lines 43-49 only convert string/dict inputs into such a list
before the same sort). -/
def parse_and_sort_contributors (contributors : List Contrib) : List Contrib :=
  sortByKey get_first_name contributors

theorem lexLe_refl : ∀ a : List Char, lexLe a a = true
  | [] => rfl
  | _ :: rest => by
    unfold lexLe
    rw [if_pos rfl]
    exact lexLe_refl rest

theorem lexLe_total : ∀ a b : List Char, lexLe a b = true ∨ lexLe b a = true
  | [], _ => Or.inl rfl
  | _ :: _, [] => Or.inr rfl
  | a :: as, b :: bs => by
    unfold lexLe
    by_cases hab : a.toNat = b.toNat
    · rw [if_pos hab, if_pos hab.symm]
      exact lexLe_total as bs
    · rw [if_neg hab, if_neg (fun h => hab h.symm)]
      rcases Nat.lt_or_ge a.toNat b.toNat with h | h
      · exact Or.inl (decide_eq_true h)
      · exact Or.inr (decide_eq_true (by omega))

theorem lexLe_trans : ∀ {a b c : List Char},
    lexLe a b = true → lexLe b c = true → lexLe a c = true
  | [], _, _, _, _ => rfl
  | _ :: _, [], _, h, _ => by simp [lexLe] at h
  | _ :: _, _ :: _, [], _, h => by simp [lexLe] at h
  | a :: as, b :: bs, c :: cs, h1, h2 => by
    unfold lexLe at h1 h2 ⊢
    by_cases hab : a.toNat = b.toNat
    · rw [if_pos hab] at h1
      by_cases hbc : b.toNat = c.toNat
      · rw [if_pos hbc] at h2
        rw [if_pos (hab.trans hbc)]
        exact lexLe_trans h1 h2
      · rw [if_neg hbc] at h2
        have hlt : b.toNat < c.toNat := of_decide_eq_true h2
        rw [if_neg (by omega)]
        exact decide_eq_true (by omega)
    · rw [if_neg hab] at h1
      have hlt1 : a.toNat < b.toNat := of_decide_eq_true h1
      by_cases hbc : b.toNat = c.toNat
      · rw [if_neg (by omega)]
        exact decide_eq_true (by omega)
      · rw [if_neg hbc] at h2
        have hlt2 : b.toNat < c.toNat := of_decide_eq_true h2
        rw [if_neg (by omega)]
        exact decide_eq_true (by omega)

theorem mem_insertByKey {key : Contrib → List Char} {x z : Contrib} :
    ∀ {l : List Contrib}, z ∈ insertByKey key x l ↔ z = x ∨ z ∈ l
  | [] => by simp [insertByKey]
  | y :: ys => by
    unfold insertByKey
    split
    · simp [List.mem_cons]
    · simp only [List.mem_cons, @mem_insertByKey key x z ys]
      tauto

theorem pairwise_insertByKey {key : Contrib → List Char} {x : Contrib} :
    ∀ {l : List Contrib},
      List.Pairwise (fun u v => lexLe (key u) (key v) = true) l →
      List.Pairwise (fun u v => lexLe (key u) (key v) = true) (insertByKey key x l)
  | [], _ => List.pairwise_singleton _ _
  | y :: ys, h => by
    obtain ⟨hy, hys⟩ := List.pairwise_cons.mp h
    unfold insertByKey
    split
    · rename_i hxy
      refine List.pairwise_cons.mpr ⟨?_, h⟩
      intro z hz
      rcases List.mem_cons.mp hz with rfl | hz2
      · exact hxy
      · exact lexLe_trans hxy (hy z hz2)
    · rename_i hxy
      refine List.pairwise_cons.mpr ⟨?_, pairwise_insertByKey hys⟩
      intro z hz
      rcases (@mem_insertByKey key x z ys).mp hz with hzx | hz2
      · rw [hzx]
        rcases lexLe_total (key x) (key y) with h1 | h1
        · exact absurd h1 hxy
        · exact h1
      · exact hy z hz2

theorem pairwise_sortByKey (key : Contrib → List Char) :
    ∀ l : List Contrib,
      List.Pairwise (fun u v => lexLe (key u) (key v) = true) (sortByKey key l)
  | [] => List.Pairwise.nil
  | x :: xs => pairwise_insertByKey (pairwise_sortByKey key xs)

theorem filter_insertByKey (key : Contrib → List Char) (x : Contrib) (k : List Char) :
    ∀ l : List Contrib,
      (insertByKey key x l).filter (fun y => key y == k) =
        if key x == k then x :: l.filter (fun y => key y == k)
        else l.filter (fun y => key y == k)
  | [] => by
    simp only [insertByKey, List.filter]
    rcases hxk : (key x == k) <;> simp
  | y :: ys => by
    unfold insertByKey
    split
    · rename_i hxy
      by_cases hxk : (key x == k) = true <;>
        simp [List.filter_cons, hxk]
    · rename_i hxy
      rw [List.filter_cons, filter_insertByKey key x k ys]
      by_cases hxk : (key x == k) = true
      · by_cases hyk : (key y == k) = true
        · exfalso
          have e1 : key x = k := beq_iff_eq.mp hxk
          have e2 : key y = k := beq_iff_eq.mp hyk
          rw [e1, e2] at hxy
          exact hxy (lexLe_refl k)
        · simp [List.filter_cons, hxk, hyk]
      · by_cases hyk : (key y == k) = true <;>
          simp [List.filter_cons, hxk, hyk]

theorem filter_sortByKey (key : Contrib → List Char) (k : List Char) :
    ∀ l : List Contrib,
      (sortByKey key l).filter (fun y => key y == k) =
        l.filter (fun y => key y == k)
  | [] => rfl
  | x :: xs => by
    show (insertByKey key x (sortByKey key xs)).filter _ = _
    rw [filter_insertByKey, filter_sortByKey key k xs]
    by_cases hxk : (key x == k) = true <;> simp [List.filter_cons, hxk]

/-! ### C7 -/

/-- Modelled from the claim's words: everything after the FIRST comma. -/
def dropThroughFirstComma : List Char → List Char
  | [] => []
  | c :: rest => if c == ',' then rest else dropThroughFirstComma rest

/-- The claimed key: for a display name containing a comma, the first name is ALL the
text after the first comma (stripped, lowercased); otherwise as in the code. -/
def claimFirstName (contributor : Contrib) : List Char :=
  let name := pyStrip (rawName contributor)
  if ',' ∈ name then toLowerAscii (pyStrip (dropThroughFirstComma name))
  else
    match pySplitWs name with
    | p :: _ => toLowerAscii p
    | [] => toLowerAscii name

def claimSort (cs : List Contrib) : List Contrib := sortByKey claimFirstName cs

/-- C7 counterexample: with display names containing two commas the code's key is the
text between the two commas, not the text after the first comma.  For
`["Doe, Jane, PhD", "Doe, Jane, Abc"]` both code keys are `"jane"`, so the stable
sort keeps the input order, while sorting by the claim's key `"jane, phd"` /
`"jane, abc"` would swap them. -/
theorem contributor_sort_key_mismatch :
    parse_and_sort_contributors
        [Contrib.dict (some "Doe, Jane, PhD".data), Contrib.dict (some "Doe, Jane, Abc".data)] =
      [Contrib.dict (some "Doe, Jane, PhD".data), Contrib.dict (some "Doe, Jane, Abc".data)] ∧
    claimSort
        [Contrib.dict (some "Doe, Jane, PhD".data), Contrib.dict (some "Doe, Jane, Abc".data)] =
      [Contrib.dict (some "Doe, Jane, Abc".data), Contrib.dict (some "Doe, Jane, PhD".data)] := by
  exact ⟨by decide, by decide⟩

/-- C7 amended: `_parse_and_sort_contributors` sorts stably and case-insensitively by
inferred first name, where for a display name containing a comma the first name is
the text between the first and second commas (the second field of `split(',')`),
otherwise the text before the first space, otherwise the full name.  The output is
sorted by that key; for every key value the elements carrying it keep their input
order and multiplicity (stability and permutation); and "adam Young" sorts before
"Zoe Adams". -/
theorem contributor_sort (cs : List Contrib) (k : List Char) :
    List.Pairwise
      (fun u v => lexLe (get_first_name u) (get_first_name v) = true)
      (parse_and_sort_contributors cs) ∧
    (parse_and_sort_contributors cs).filter (fun y => get_first_name y == k) =
      cs.filter (fun y => get_first_name y == k) ∧
    parse_and_sort_contributors
        [Contrib.dict (some "Zoe Adams".data), Contrib.dict (some "adam Young".data)] =
      [Contrib.dict (some "adam Young".data), Contrib.dict (some "Zoe Adams".data)] :=
  ⟨pairwise_sortByKey get_first_name cs, filter_sortByKey get_first_name k cs, by decide⟩

end CE
